import Mathlib

/-!
Verification development for the cv-optimizer fuzzy text-replacement engine
(`normalizeText`, `stripHtmlTags`, `createFlexibleHtmlRegex`, `findTextInHtml`,
`replaceTextFuzzy`) and the geometric PDF edit applier (`fitTextToWidth`,
`applyInPlaceEdit`, the batch `POST` edit loop).

Strings are modelled as `List Char`.  The JavaScript regular expressions the
code builds are modelled by a small regex AST (`Rx`) with a backtracking
matcher that follows JavaScript semantics: leftmost match, alternatives tried
in order, greedy star with backtracking, case-insensitive character
comparison via `Char.toLower` (the `i` flag), and global replacement that
rescans after the end of each match (the `g` flag).  Numeric font arithmetic
is modelled over `ℚ` (the JS doubles 0.85 and 0.5 appear as 17/20 and 1/2).
-/

namespace CvOpt

/-- Characters of a string literal, used to write concrete documents. -/
def cs (s : String) : List Char := s.data

/-- The JS `\s` character class (the whitespace characters relevant here). -/
def jsSpace (c : Char) : Bool :=
  c = ' ' || c = '\t' || c = '\n' || c = '\r' ||
  c = Char.ofNat 11 || c = Char.ofNat 12 || c = Char.ofNat 0xA0 ||
  c = Char.ofNat 0x2028 || c = Char.ofNat 0x2029 || c = Char.ofNat 0xFEFF

/-- ASCII apostrophe (written via its code point). -/
def aposC : Char := Char.ofNat 39

/-- ASCII double quote. -/
def quotC : Char := Char.ofNat 34

/-- Left single quotation mark U+2018. -/
def lsq : Char := Char.ofNat 0x2018

/-- Right single quotation mark U+2019. -/
def rsq : Char := Char.ofNat 0x2019

/-- Left double quotation mark U+201C. -/
def ldq : Char := Char.ofNat 0x201C

/-- Right double quotation mark U+201D. -/
def rdq : Char := Char.ofNat 0x201D

/-- En dash U+2013. -/
def ndash : Char := Char.ofNat 0x2013

/-- Em dash U+2014. -/
def mdash : Char := Char.ofNat 0x2014

/-- JS `String.prototype.toLowerCase` restricted to the code points used. -/
def toLowerL (s : List Char) : List Char := s.map Char.toLower

/-- `text.replace(/\s+/g, " ")`: collapse every whitespace run to one space.
The boolean flag records whether the previous character was part of a run. -/
def collapseGo : Bool → List Char → List Char
  | _, [] => []
  | prevWs, c :: rest =>
    if jsSpace c then
      if prevWs then collapseGo true rest else ' ' :: collapseGo true rest
    else c :: collapseGo false rest

/-- Collapse whitespace runs (the first normalization step). -/
def collapseWs (s : List Char) : List Char := collapseGo false s

/-- One character under the smart-quote / dash substitutions of
`normalizeText` (`/[‘’]/g -> apostrophe`, `/[“”]/g -> quote`,
`/–/g -> -`, `/—/g -> -`): all are per-character maps. -/
def qdChar (c : Char) : Char :=
  if c = lsq || c = rsq then aposC
  else if c = ldq || c = rdq then quotC
  else if c = ndash || c = mdash then '-'
  else c

/-- The smart-quote / dash substitutions applied over a string. -/
def mapQD (s : List Char) : List Char := s.map qdChar

/-- Fuel-indexed worker for literal global replacement.  Every step consumes
at least one character, so fuel `s.length` never runs out; exhausted fuel
returns the remainder unchanged. -/
def replaceAllGo (p0 : Char) (pt rep : List Char) : Nat → List Char → List Char
  | 0, s => s
  | _, [] => []
  | fuel + 1, c :: rest =>
    if (p0 :: pt).isPrefixOf (c :: rest) then
      rep ++ replaceAllGo p0 pt rep fuel (rest.drop pt.length)
    else c :: replaceAllGo p0 pt rep fuel rest

/-- `s.replace(/PAT/g, REP)` for a literal pattern `p0 :: pt`:
leftmost non-overlapping replacement of every occurrence. -/
def replaceAllSub (p0 : Char) (pt rep s : List Char) : List Char :=
  replaceAllGo p0 pt rep s.length s

/-- The five HTML entity decodes, in source order: `&amp;` first,
then `&lt;`, `&gt;`, `&quot;`, `&#039;`, each a global replace over the
result of the previous one. -/
def entityDecode5 (s : List Char) : List Char :=
  replaceAllSub '&' (cs "#039;") [aposC]
    (replaceAllSub '&' (cs "quot;") [quotC]
      (replaceAllSub '&' (cs "gt;") ['>']
        (replaceAllSub '&' (cs "lt;") ['<']
          (replaceAllSub '&' (cs "amp;") ['&'] s))))

/-- JS `String.prototype.trim` over the modelled whitespace class. -/
def trimWs (s : List Char) : List Char :=
  (((s.dropWhile jsSpace).reverse).dropWhile jsSpace).reverse

/-- `normalizeText` from the source: collapse whitespace, canonicalize smart
quotes and dashes, decode the five HTML entities (in the order written in the
source), then trim. -/
def normalizeText (s : List Char) : List Char :=
  trimWs (entityDecode5 (mapQD (collapseWs s)))

/-- Length of the match of `/^<br\s*\/?>/i` at the head of `s`, if any. -/
def brMatchLen (s : List Char) : Option Nat :=
  match s with
  | c0 :: c1 :: c2 :: rest =>
    if c0 = '<' ∧ c1.toLower = 'b' ∧ c2.toLower = 'r' then
      let wsRun := rest.takeWhile jsSpace
      match rest.drop wsRun.length with
      | '/' :: '>' :: _ => some (3 + wsRun.length + 2)
      | '>' :: _ => some (3 + wsRun.length + 1)
      | _ => none
    else none
  | _ => none

/-- Fuel-indexed worker for the `<br>`-to-space replacement. -/
def brToSpaceGo : Nat → List Char → List Char
  | 0, s => s
  | _, [] => []
  | fuel + 1, c :: rest =>
    match brMatchLen (c :: rest) with
    | some len => ' ' :: brToSpaceGo fuel (rest.drop (len - 1))
    | none => c :: brToSpaceGo fuel rest

/-- `html.replace(/<br\s*\/?>/gi, " ")`: every `<br>` tag becomes a space. -/
def brToSpace (s : List Char) : List Char := brToSpaceGo s.length s

/-- Fuel-indexed worker for tag removal. -/
def stripTagsGo : Nat → List Char → List Char
  | 0, s => s
  | _, [] => []
  | fuel + 1, c :: rest =>
    if c = '<' then
      let inner := rest.takeWhile (fun d => d ≠ '>')
      if 0 < inner.length ∧ inner.length < rest.length then
        stripTagsGo fuel (rest.drop (inner.length + 1))
      else c :: stripTagsGo fuel rest
    else c :: stripTagsGo fuel rest

/-- `html.replace(/<[^>]+>/g, "")`: remove every span starting at `<`,
containing at least one non-`>` character, and ending at the next `>`. -/
def stripTags (s : List Char) : List Char := stripTagsGo s.length s

/-- `stripHtmlTags` from the source: `<br>` to space, remove remaining tags,
decode the five entities, collapse whitespace, trim. -/
def stripHtmlTags (html : List Char) : List Char :=
  trimWs (collapseWs (entityDecode5 (stripTags (brToSpace html))))

/-- Accumulating worker for `split(/\s+/)`.  The flag records whether the
previous character was inside a whitespace run (a token was just emitted). -/
def splitWsAux : Bool → List Char → List Char → List (List Char)
  | _, acc, [] => [acc.reverse]
  | prevWs, acc, c :: rest =>
    if jsSpace c then
      if prevWs then splitWsAux true acc rest
      else acc.reverse :: splitWsAux true [] rest
    else splitWsAux false (c :: acc) rest

/-- JS `s.split(/\s+/)` (leading/trailing runs give empty tokens, the empty
string gives `[""]`). -/
def splitWsJS (s : List Char) : List (List Char) := splitWsAux false [] s

/-- JS `s.split(" ")` (split at every single space character). -/
def splitSpace1 : List Char → List (List Char) :=
  splitGo1 []
where
  splitGo1 (acc : List Char) : List Char → List (List Char)
    | [] => [acc.reverse]
    | c :: rest => if c = ' ' then acc.reverse :: splitGo1 [] rest else splitGo1 (c :: acc) rest

/-- JS `haystack.indexOf(needle)` as an option. -/
def indexOfSub (pat : List Char) : List Char → Option Nat
  | [] => if pat.isEmpty then some 0 else none
  | c :: rest =>
    if pat.isPrefixOf (c :: rest) then some 0
    else (indexOfSub pat rest).map (· + 1)

/-- JS `s.replace(stringPattern, rep)`: replace the first literal occurrence,
return `s` unchanged when there is none. -/
def replaceFirstSub (pat rep s : List Char) : List Char :=
  match indexOfSub pat s with
  | none => s
  | some i => s.take i ++ rep ++ s.drop (i + pat.length)

/-- Fuel-indexed worker for counting occurrences. -/
def countSubGo (pat : List Char) : Nat → List Char → Nat
  | 0, _ => 0
  | _, [] => 0
  | fuel + 1, c :: rest =>
    if pat.isPrefixOf (c :: rest) then 1 + countSubGo pat fuel (rest.drop (pat.length - 1))
    else countSubGo pat fuel rest

/-- Number of non-overlapping literal occurrences of `pat` in a string. -/
def countSub (pat s : List Char) : Nat := countSubGo pat s.length s

/-- Regex AST covering the patterns the source builds: empty, a character
class, concatenation, alternation (alternatives tried left first, as in JS),
an optional group `(?:..)?` (greedy), and star over a character class
(`\s*`, greedy with backtracking). -/
inductive Rx : Type
  | eps : Rx
  | ch : (Char → Bool) → Rx
  | cat : Rx → Rx → Rx
  | alt : Rx → Rx → Rx
  | opt : Rx → Rx
  | star : (Char → Bool) → Rx

/-- Backtracking driver for `star`: try consuming `n` characters first
(the greedy choice), then fewer, calling the continuation each time. -/
def starGo (k : List Char → Option (List Char)) (s : List Char) : Nat → Option (List Char)
  | 0 => k s
  | n + 1 =>
    match k (s.drop (n + 1)) with
    | some r => some r
    | none => starGo k s n

/-- CPS backtracking matcher with JavaScript semantics: `rxRun r s k`
matches `r` at the head of `s` and passes the remaining suffix to `k`,
exploring choice points in JS order until `k` succeeds. -/
def rxRun : Rx → List Char → (List Char → Option (List Char)) → Option (List Char)
  | .eps, s, k => k s
  | .ch p, s, k =>
    match s with
    | [] => none
    | c :: rest => if p c then k rest else none
  | .cat a b, s, k => rxRun a s (fun s2 => rxRun b s2 k)
  | .alt a b, s, k =>
    match rxRun a s k with
    | some r => some r
    | none => rxRun b s k
  | .opt a, s, k =>
    match rxRun a s k with
    | some r => some r
    | none => k s
  | .star p, s, k => starGo k s (s.takeWhile p).length

/-- Length of the (backtracking-first) match of `r` at the head of `s`. -/
def matchLenAt (r : Rx) (s : List Char) : Option Nat :=
  (rxRun r s Option.some).map (fun rem => s.length - rem.length)

/-- Leftmost match of `r` in `s`: start index and length, scanning left to
right as a JS regex with `lastIndex = 0` does. -/
def rxSearch (r : Rx) : List Char → Option (Nat × Nat)
  | [] => (matchLenAt r []).map (fun len => (0, len))
  | c :: rest =>
    match matchLenAt r (c :: rest) with
    | some len => some (0, len)
    | none => (rxSearch r rest).map (fun q => (q.1 + 1, q.2))

/-- `regex.test(s)` for a fresh (or reset) global regex. -/
def rxTest (r : Rx) (s : List Char) : Bool := (rxSearch r s).isSome

/-- Fuel-indexed worker for global replacement (`s.replace(/r/g, rep)`).
After a match of length `len` at index `i` the scan resumes at `i + len`;
an empty match keeps the character under it and advances by one.  Each step
consumes at least one character, so fuel `s.length + 1` never runs out. -/
def rxReplaceGo (r : Rx) (rep : List Char) : Nat → List Char → List Char
  | 0, s => s
  | fuel + 1, s =>
    match rxSearch r s with
    | none => s
    | some (i, len) =>
      if len = 0 then
        match s.drop i with
        | [] => s.take i ++ rep
        | c :: rest => s.take i ++ rep ++ c :: rxReplaceGo r rep fuel rest
      else s.take i ++ rep ++ rxReplaceGo r rep fuel (s.drop (i + len))

/-- JS `s.replace(/r/g, rep)` (replacement inserted verbatim; none of the
replacement strings in the claims use `$`-patterns). -/
def rxReplaceAll (r : Rx) (rep s : List Char) : List Char :=
  rxReplaceGo r rep (s.length + 1) s

/-- A single literal pattern character under the `i` flag. -/
def ciChar (p : Char) : Rx := .ch (fun c => c.toLower == p.toLower)

/-- A literal word under the `i` flag (the source escapes regex
metacharacters in each word, so every word character matches literally). -/
def litCI : List Char → Rx
  | [] => .eps
  | c :: rest => .cat (ciChar c) (litCI rest)

/-- The `<br\s*\/?>` pattern used inside the word separator. -/
def brRx : Rx :=
  .cat (ciChar '<') (.cat (ciChar 'b') (.cat (ciChar 'r')
    (.cat (.star jsSpace) (.cat (.opt (ciChar '/')) (ciChar '>')))))

/-- The separator the source joins words with:
`(?:\s*(?:<br\s*\/?>)?\s*|\s+)`. -/
def sepRx : Rx :=
  .alt (.cat (.star jsSpace) (.cat (.opt brRx) (.star jsSpace)))
    (.cat (.ch jsSpace) (.star jsSpace))

/-- The full pattern of `createFlexibleHtmlRegex`: words joined by `sepRx`. -/
def wordsRx : List (List Char) → Rx
  | [] => .eps
  | [w] => litCI w
  | w :: rest => .cat (litCI w) (.cat sepRx (wordsRx rest))

/-- `createFlexibleHtmlRegex` from the source: normalize, split into words,
drop empty tokens, return no pattern when no word survives, otherwise the
joined case-insensitive pattern.  (The `try`/`catch` never fires: every
word is metacharacter-escaped, so compilation cannot throw.) -/
def createFlexibleHtmlRegex (text : List Char) : Option Rx :=
  let words := (splitWsJS (normalizeText text)).filter (fun w => 0 < w.length)
  if words.length = 0 then none else some (wordsRx words)

/-- The method-3 pattern of `replaceTextFuzzy`: the normalized snippet with
metacharacters escaped and every space turned into `\s+`, under `gi`. -/
def looseRx : List Char → Rx
  | [] => .eps
  | c :: rest =>
    .cat (if c = ' ' then .cat (.ch jsSpace) (.star jsSpace) else ciChar c)
      (looseRx rest)

/-- Result record of `findTextInHtml`: `start`/`stop` offsets and the slice
`html.slice(start, stop)` (fields renamed from `start`/`end`/`match`, which
collide with Lean keywords). -/
structure FoundSpan where
  start : Nat
  stop : Nat
  matched : List Char
deriving DecidableEq, Repr

/-- The `plainToHtml` position map of `findTextInHtml`: walk the
entity-decoded document, skip tag interiors, record the document offset of
every visible character, and record one synthetic offset at each `<br>`
(which also flips the in-tag flag on, exactly as the source loop does). -/
def buildPlainToHtml (s : List Char) : List Nat :=
  go s 0 false []
where
  go : List Char → Nat → Bool → List Nat → List Nat
    | [], _, _, acc => acc.reverse
    | c :: rest, i, inTag, acc =>
      if c = '<' then
        match brMatchLen (c :: rest) with
        | some _ => go rest (i + 1) true (i :: acc)
        | none => go rest (i + 1) true acc
      else if c = '>' then go rest (i + 1) false acc
      else if inTag then go rest (i + 1) true acc
      else go rest (i + 1) false (i :: acc)

/-- The tolerant word-by-word scan of `findTextInHtml` (source lines
117-172), returning `(matchStartPlain, matchEndPlain)` with `-1` as the
"unset" sentinel exactly as in the source.  State: current word index,
characters matched inside the current word, the plain offset where the
current word started (`-1` when not matching), and the plain offset where
the whole match started (`-1` when unset). -/
def scanLoop (searchWords : List (List Char)) (plainChars : List Char) : Int × Int :=
  go plainChars 0 0 (searchWords.headD []) 0 (-1) (-1)
where
  go : List Char → Nat → Nat → List Char → Nat → Int → Int → Int × Int
    | [], _, _, _, _, _, msp => (msp, -1)
    | c :: rest, i, cwIdx, cw, sIdx, wms, msp =>
      if searchWords.length ≤ cwIdx then (msp, -1)
      else if jsSpace c then
        if wms ≠ -1 ∧ sIdx = cw.length then
          let msp2 := if msp = -1 then wms else msp
          if cwIdx + 1 < searchWords.length then
            go rest (i + 1) (cwIdx + 1) (searchWords.getD (cwIdx + 1) []) 0 (-1) msp2
          else (msp2, (i : Int))
        else if wms ≠ -1 then
          go rest (i + 1) 0 (searchWords.headD []) 0 (-1) (-1)
        else go rest (i + 1) cwIdx cw sIdx wms msp
      else if cw.get? sIdx = some c then
        let wms2 := if wms = -1 then (i : Int) else wms
        if sIdx + 1 = cw.length ∧ cwIdx = searchWords.length - 1 then
          ((if msp = -1 then wms2 else msp), (i + 1 : Int))
        else go rest (i + 1) cwIdx cw (sIdx + 1) wms2 msp
      else go rest (i + 1) 0 (searchWords.headD []) 0 (-1) (-1)

/-- `findTextInHtml` from the source: find the normalized phrase in the
stripped plain-text projection, rebuild the plain-to-document offset map over
the entity-decoded document, re-run the tolerant scan, and map the plain span
back to document offsets (`end` falls back to `html.length` when the span
reaches the end of the map). -/
def findTextInHtml (html searchText : List Char) : Option FoundSpan :=
  let normalizedSearch := normalizeText searchText
  let plainText := stripHtmlTags html
  let normalizedPlain := normalizeText plainText
  match indexOfSub (toLowerL normalizedSearch) (toLowerL normalizedPlain) with
  | none => none
  | some _ =>
    let normalizedHtml := entityDecode5 html
    let plainToHtml := buildPlainToHtml normalizedHtml
    let searchWords := splitWsJS (toLowerL normalizedSearch)
    let plainChars := toLowerL normalizedPlain
    let mpair := scanLoop searchWords plainChars
    if mpair.1 = -1 ∨ mpair.2 = -1 then none
    else if (plainToHtml.length : Int) ≤ mpair.1 ∨ (plainToHtml.length : Int) < mpair.2 then none
    else
      let s := plainToHtml.getD mpair.1.toNat 0
      let e :=
        if mpair.2 < (plainToHtml.length : Int) then plainToHtml.getD mpair.2.toNat 0
        else html.length
      some ⟨s, e, (html.drop s).take (e - s)⟩

/-- Methods 2-4 of `replaceTextFuzzy`: the plain-text locator splice, the
loose normalized regex pass, then the literal first-occurrence replace. -/
def fuzzyFallback (html originalText newText : List Char) : List Char :=
  match findTextInHtml html originalText with
  | some f => html.take f.start ++ newText ++ html.drop f.stop
  | none =>
    let m3 := looseRx (normalizeText originalText)
    if rxTest m3 html then rxReplaceAll m3 newText html
    else replaceFirstSub originalText newText html

/-- `replaceTextFuzzy` from the source: flexible HTML regex first (a global
replace when it tests positive), then the three fallbacks. -/
def replaceTextFuzzy (html originalText newText : List Char) : List Char :=
  match createFlexibleHtmlRegex originalText with
  | some rx =>
    if rxTest rx html then rxReplaceAll rx newText html
    else fuzzyFallback html originalText newText
  | none => fuzzyFallback html originalText newText

/-- "Some strategy locates the snippet in the document": the disjunction of
the four strategies' success tests, in source order (flexible regex test,
plain-text locator, loose regex test, literal occurrence). -/
def locatesAny (html originalText : List Char) : Bool :=
  (match createFlexibleHtmlRegex originalText with
   | some rx => rxTest rx html
   | none => false)
  || (findTextInHtml html originalText).isSome
  || rxTest (looseRx (normalizeText originalText)) html
  || (indexOfSub originalText html).isSome

/-- Bounding box `{x, y, width, height}` (page-local coordinates), over ℚ. -/
structure GeoBBox where
  x : ℚ
  y : ℚ
  width : ℚ
  height : ℚ
deriving DecidableEq, Repr

/-- The shrink loop of `fitTextToWidth` (source lines 177-187):
`while (fontSize > minSize) { if width <= maxWidth return fontSize;
fontSize -= 0.5 }; return minSize` with `minSize = 6`.  `widthOf` abstracts
the collaborator `font.widthOfTextAtSize(text, size)`.  The fuel argument
only bounds the iteration count; the caller passes enough for the loop to
reach the floor, and every bound proved below holds for any fuel. -/
def fitLoop (widthOf : List Char → ℚ → ℚ) (text : List Char) (maxWidth : ℚ) :
    ℚ → Nat → ℚ
  | _, 0 => 6
  | fontSize, fuel + 1 =>
    if 6 < fontSize then
      if widthOf text fontSize ≤ maxWidth then fontSize
      else fitLoop widthOf text maxWidth (fontSize - 1 / 2) fuel
    else 6

/-- `fitTextToWidth` from the source: text of more than 3 words (split on
single spaces) keeps the start size with a floor of 8; otherwise shrink in
steps of 0.5 from the start size down to a floor of 6 until the measured
single-line width fits. -/
def fitTextToWidth (widthOf : List Char → ℚ → ℚ) (text : List Char)
    (maxWidth startSize : ℚ) : ℚ :=
  if 3 < (splitSpace1 text).length then max startSize 8
  else fitLoop widthOf text maxWidth startSize (startSize.num.toNat * 2 + 2)

/-- The font size chosen by `applyInPlaceEdit` (source lines 123-124):
`fitTextToWidth(newText, bbox.width, font, min(bbox.height * 0.85, 12))`. -/
def applyInPlaceEditFontSize (widthOf : List Char → ℚ → ℚ) (newText : List Char)
    (bbox : GeoBBox) : ℚ :=
  fitTextToWidth widthOf newText bbox.width (min (bbox.height * (17 / 20)) 12)

/-- An applied edit as consumed by the batch endpoint (the fields the
page-range check and the claims use). -/
structure AppliedEditM where
  pageIndex : Int
  bbox : GeoBBox
  newText : List Char
deriving DecidableEq, Repr

/-- The edit loop of the batch `POST` handler (source lines 62-76): an edit
whose `pageIndex` is negative or at least the page count is skipped (with a
warning) and the loop continues; the edits this returns are the ones
actually applied, in order. -/
def postApplyEdits (pageCount : Nat) : List AppliedEditM → List AppliedEditM
  | [] => []
  | e :: rest =>
    if e.pageIndex < 0 ∨ (pageCount : Int) ≤ e.pageIndex then postApplyEdits pageCount rest
    else e :: postApplyEdits pageCount rest

/-- The count the handler reports (source line 80):
`setSubject("Applied N optimizations")` with `N = changeSet.appliedEdits.length`,
the length of the submitted edit list. -/
def reportedAppliedCount (edits : List AppliedEditM) : Nat := edits.length

/-- Characters for which every step of `normalizeText` is the identity and
which can neither be taken for whitespace nor for the start of a `<br>` tag
by the flexible matcher: not JS whitespace, lowercasing does not give `<`,
and not one of the seven characters `normalizeText` rewrites or decodes. -/
def goodChar (c : Char) : Prop :=
  jsSpace c = false ∧ c.toLower ≠ '<' ∧ c ≠ '&' ∧ c ≠ lsq ∧ c ≠ rsq ∧
  c ≠ ldq ∧ c ≠ rdq ∧ c ≠ ndash ∧ c ≠ mdash

instance (c : Char) : Decidable (goodChar c) := by
  unfold goodChar; infer_instance

/-- When no strategy of `replaceTextFuzzy` locates the snippet, the function
runs through all four methods and the final literal replace finds no
occurrence either, so the document comes back unchanged. -/
theorem replace_unchanged_of_not_located (html orig n : List Char)
    (h : locatesAny html orig = false) : replaceTextFuzzy html orig n = html := by
  unfold locatesAny at h
  unfold replaceTextFuzzy fuzzyFallback replaceFirstSub
  cases hc : createFlexibleHtmlRegex orig <;>
    cases hf : findTextInHtml html orig <;>
      cases hi : indexOfSub orig html <;>
        simp_all

/-- Claim C2: when no strategy of `replaceTextFuzzy` locates the snippet in
the document, the function returns the document unchanged (it is total by
construction, so it never throws). -/
theorem c2_unlocated_returns_input (html orig n : List Char)
    (h : locatesAny html orig = false) : replaceTextFuzzy html orig n = html :=
  replace_unchanged_of_not_located html orig n h

/-- Witness for C2: the snippet `xyz` is located by no strategy in
`Hello world`, and the replacement leaves the document unchanged. -/
theorem c2_unlocated_returns_input_witness :
    locatesAny (cs "Hello world") (cs "xyz") = false ∧
    replaceTextFuzzy (cs "Hello world") (cs "xyz") (cs "foo") = cs "Hello world" :=
  ⟨by decide, c2_unlocated_returns_input (cs "Hello world") (cs "xyz") (cs "foo") (by decide)⟩

/-- Counterexample to claim C3 as stated: idempotence fails when the
replacement text reintroduces the snippet.  With document `b`, snippet `b`,
replacement `bb`, the first call gives `bb` and the second call gives
`bbbb`, not `bb`. -/
theorem c3_counterexample :
    replaceTextFuzzy (replaceTextFuzzy (cs "b") (cs "b") (cs "bb")) (cs "b") (cs "bb") ≠
      replaceTextFuzzy (cs "b") (cs "b") (cs "bb") := by decide

/-- Claim C3 as amended: re-applying the same replacement leaves the
once-replaced document unchanged whenever no strategy locates the snippet in
that once-replaced document (in particular whenever the replacement text did
not reintroduce the snippet); unrestricted idempotence is false. -/
theorem c3_idempotent_of_not_relocated (d s n : List Char)
    (h : locatesAny (replaceTextFuzzy d s n) s = false) :
    replaceTextFuzzy (replaceTextFuzzy d s n) s n = replaceTextFuzzy d s n :=
  replace_unchanged_of_not_located (replaceTextFuzzy d s n) s n h

/-- Witness for the amended C3: replacing `Managed` by `Led` removes the
snippet, so the second application changes nothing. -/
theorem c3_idempotent_of_not_relocated_witness :
    locatesAny (replaceTextFuzzy (cs "Managed a team of 5 engineers") (cs "Managed") (cs "Led"))
        (cs "Managed") = false ∧
    replaceTextFuzzy
        (replaceTextFuzzy (cs "Managed a team of 5 engineers") (cs "Managed") (cs "Led"))
        (cs "Managed") (cs "Led") =
      replaceTextFuzzy (cs "Managed a team of 5 engineers") (cs "Managed") (cs "Led") :=
  ⟨by decide,
   c3_idempotent_of_not_relocated (cs "Managed a team of 5 engineers") (cs "Managed") (cs "Led")
     (by decide)⟩

/-- Counterexample to claim C4 as stated: in `Led  team` (two spaces) the
snippet `Led team` is uniquely present as plain text (the stripped
projection is exactly `Led team`), and `X` is uniquely present in the
replaced document `X`, yet the round trip returns `Led team` (single space),
which differs from the original document. -/
theorem c4_counterexample :
    countSub (cs "Led team") (stripHtmlTags (cs "Led  team")) = 1 ∧
    replaceTextFuzzy (cs "Led  team") (cs "Led team") (cs "X") = cs "X" ∧
    countSub (cs "X") (replaceTextFuzzy (cs "Led  team") (cs "Led team") (cs "X")) = 1 ∧
    replaceTextFuzzy (replaceTextFuzzy (cs "Led  team") (cs "Led team") (cs "X"))
        (cs "X") (cs "Led team") ≠ cs "Led  team" := by decide

/-- Claim C4 as amended: the round trip restores the document when the
snippet and the replacement each occur verbatim (with already-normalized
whitespace) and unambiguously, as in concrete scenario 1: replacing
`Managed a team` by `Led a team` and back restores the document.  When the
snippet is present only up to whitespace normalization, the round trip
returns the normalized variant instead of the original. -/
theorem c4_round_trip_verbatim :
    replaceTextFuzzy
        (replaceTextFuzzy (cs "Managed a team of 5 engineers") (cs "Managed a team")
          (cs "Led a team"))
        (cs "Led a team") (cs "Managed a team") = cs "Managed a team of 5 engineers" := by decide

/-- Counterexample to claim C5 as stated: with two disjoint occurrences of
`Led team`, the flexible-matcher strategy replaces both (the source uses the
`g` flag and `String.replace` with a global regex), so the result is not
the first-occurrence-only replacement the claim describes. -/
theorem c5_counterexample :
    replaceTextFuzzy (cs "Led team x Led team") (cs "Led team") (cs "X") = cs "X x X" ∧
    replaceTextFuzzy (cs "Led team x Led team") (cs "Led team") (cs "X") ≠
      cs "X x Led team" := by decide

/-- Claim C5 as amended: the flexible-matcher strategy substitutes the
replacement for every disjoint occurrence of the tolerant pattern (a global
replace), not only the first: all three occurrences here are rewritten. -/
theorem c5_global_replacement :
    replaceTextFuzzy (cs "Led team a Led team b Led team") (cs "Led team") (cs "X") =
      cs "X a X b X" := by decide

/-- Counterexample to claim C7 as stated: one edit with `pageIndex = 5`
against a 3-page document is skipped (nothing is applied), yet the count the
handler reports in the PDF subject metadata is the length of the submitted
edit list, 1, not 0: out-of-range edits are not excluded from the count. -/
theorem c7_counterexample :
    postApplyEdits 3 [⟨5, ⟨0, 0, 1, 1⟩, cs "x"⟩] = [] ∧
    reportedAppliedCount [⟨5, ⟨0, 0, 1, 1⟩, cs "x"⟩] = 1 ∧
    reportedAppliedCount [⟨5, ⟨0, 0, 1, 1⟩, cs "x"⟩] ≠
      (postApplyEdits 3 [⟨5, ⟨0, 0, 1, 1⟩, cs "x"⟩]).length := by decide

/-- Claim C7 as amended: the batch loop skips exactly the edits whose page
index is out of range and applies every in-range edit (it never aborts), and
the reported count is the total number of submitted edits, skipped ones
included. -/
theorem c7_skip_continue_reported_total :
    ∀ (pageCount : Nat) (edits : List AppliedEditM),
      postApplyEdits pageCount edits =
        edits.filter (fun e => decide (0 ≤ e.pageIndex ∧ e.pageIndex < (pageCount : Int))) ∧
      reportedAppliedCount edits = edits.length := by
  intro pc edits
  refine ⟨?_, rfl⟩
  induction edits with
  | nil => rfl
  | cons e rest ih =>
    rw [postApplyEdits, List.filter_cons]
    by_cases hcond : e.pageIndex < 0 ∨ (pc : Int) ≤ e.pageIndex
    · rw [if_pos hcond, ih, if_neg (by simp only [decide_eq_true_eq]; omega)]
    · rw [if_neg hcond, ih, if_pos (by simp only [decide_eq_true_eq]; omega)]

/-- Claim C8: the concrete scenario-1 replacement. -/
theorem c8_concrete_scenario :
    replaceTextFuzzy (cs "Managed a team of 5 engineers") (cs "Managed a team")
      (cs "Led a team") = cs "Led a team of 5 engineers" := by decide

/-- Claim C10: `normalizeText` decodes `&amp;` before `&lt;`, so the doubly
encoded `&amp;lt;` is decoded twice in one call and comes out as `<`, not as
`&lt;`. -/
theorem c10_double_decode :
    normalizeText (cs "&amp;lt;") = cs "<" ∧ cs "<" ≠ cs "&lt;" := by decide

/-- Counterexample to claim C1 as stated: in the document `a  b<b>c</b>d`
the phrase `bcd` occurs in the stripped projection (`a bcd`) but not
verbatim in the document (a tag interrupts the span).  The locator returns
offsets 2..12, whose splice turns the document into `a Xd`: it deletes a
visible space and keeps the visible `d`, while removing exactly the intended
run `bcd` would be the splice at offsets 3..13 (`a  X`).  The position map is
built over the document before whitespace collapsing, the scan runs after
collapsing, and the two disagree. -/
theorem c1_counterexample :
    findTextInHtml (cs "a  b<b>c</b>d") (cs "bcd") = some ⟨2, 12, cs " b<b>c</b>"⟩ ∧
    (cs "a  b<b>c</b>d").take 2 ++ cs "X" ++ (cs "a  b<b>c</b>d").drop 12 = cs "a Xd" ∧
    (cs "a  b<b>c</b>d").take 3 ++ cs "X" ++ (cs "a  b<b>c</b>d").drop 13 = cs "a  X" ∧
    cs "a Xd" ≠ cs "a  X" := by decide

/-- Claim C1 as amended: the locator returns offsets into the document, and
the splice removes exactly the intended run of visible characters when the
span involves no collapsed whitespace run and no entity decoding — the
tag-interrupted cases: a tag inside a word (`Bu<i>il</i>t`) and a `<br>`
between words (`Led<br>team`) both splice exactly; with whitespace runs or
entities the offsets can shift, as the counterexample shows. -/
theorem c1_tag_interrupt_exact :
    (findTextInHtml (cs "Bu<i>il</i>t X") (cs "Built") = some ⟨0, 12, cs "Bu<i>il</i>t"⟩ ∧
     (cs "Bu<i>il</i>t X").take 0 ++ cs "NEW" ++ (cs "Bu<i>il</i>t X").drop 12 = cs "NEW X") ∧
    (findTextInHtml (cs "Led<br>team go") (cs "Led team") =
        some ⟨0, 11, cs "Led<br>team"⟩ ∧
     (cs "Led<br>team go").take 0 ++ cs "NEW" ++ (cs "Led<br>team go").drop 11 =
        cs "NEW go") := by decide

/-- The shrink loop either hits the floor 6 or stops at a size that is
above 6, at most the start size, and whose measured width fits.  This holds
for every fuel value because exhausted fuel also returns the floor. -/
theorem fitLoop_cases (widthOf : List Char → ℚ → ℚ) (text : List Char) (maxWidth : ℚ) :
    ∀ (fuel : Nat) (fs : ℚ),
      fitLoop widthOf text maxWidth fs fuel = 6 ∨
      (6 < fitLoop widthOf text maxWidth fs fuel ∧
        fitLoop widthOf text maxWidth fs fuel ≤ fs ∧
        widthOf text (fitLoop widthOf text maxWidth fs fuel) ≤ maxWidth) := by
  intro fuel
  induction fuel with
  | zero => intro fs; left; rfl
  | succ m ih =>
    intro fs
    rw [fitLoop]
    by_cases h6 : 6 < fs
    · rw [if_pos h6]
      by_cases hw : widthOf text fs ≤ maxWidth
      · rw [if_pos hw]; right; exact ⟨h6, le_refl fs, hw⟩
      · rw [if_neg hw]
        rcases ih (fs - 1 / 2) with hl | ⟨hgt, hle, hwid⟩
        · left; exact hl
        · right; exact ⟨hgt, hle.trans (by linarith), hwid⟩
    · rw [if_neg h6]; left; rfl

/-- Counterexample to claim C6 as stated: for the bounding box of height 7
and width 100 and the 4-word replacement `a b c d`, the start size is
`min(0.85 * 7, 12) = 119/20`, and `fitTextToWidth` returns
`max(119/20, 8) = 8`, which exceeds the claimed upper bound
`min(0.85 * H, 12)` (the more-than-3-words branch applies a floor of 8). -/
theorem c6_counterexample :
    ¬ applyInPlaceEditFontSize (fun _ _ => (1 : ℚ)) (cs "a b c d") ⟨0, 0, 100, 7⟩ ≤
        min ((7 : ℚ) * (17 / 20)) 12 := by
  unfold applyInPlaceEditFontSize fitTextToWidth
  rw [if_pos (by decide)]
  rw [show ((⟨0, 0, 100, 7⟩ : GeoBBox).height) = (7 : ℚ) from rfl]
  rw [max_def, min_def]
  norm_num

/-- Claim C6 as amended: for every width-measuring function, replacement
text and bounding box, the chosen font size lies in `[6, 12]` and never
exceeds `max(min(0.85 * H, 12), 8)` (the floor rises to 8 for text of more
than 3 words, and the floor 6 can exceed `min(0.85 * H, 12)` for small
heights); and for text of at most 3 words, either the measured single-line
width at the chosen size fits the box width or the chosen size is the
floor 6 — this second part of the original claim is unchanged. -/
theorem c6_font_size_bounds (widthOf : List Char → ℚ → ℚ) (T : List Char) (bb : GeoBBox) :
    (6 ≤ applyInPlaceEditFontSize widthOf T bb ∧
      applyInPlaceEditFontSize widthOf T bb ≤ 12 ∧
      applyInPlaceEditFontSize widthOf T bb ≤ max (min (bb.height * (17 / 20)) 12) 8) ∧
    ((splitSpace1 T).length ≤ 3 →
      (widthOf T (applyInPlaceEditFontSize widthOf T bb) ≤ bb.width ∨
        applyInPlaceEditFontSize widthOf T bb = 6)) := by
  unfold applyInPlaceEditFontSize fitTextToWidth
  by_cases h3 : 3 < (splitSpace1 T).length
  · rw [if_pos h3]
    have hmin : min (bb.height * (17 / 20)) 12 ≤ 12 := min_le_right _ _
    refine ⟨⟨?_, ?_, le_refl _⟩, ?_⟩
    · exact le_trans (by norm_num) (le_max_right _ _)
    · exact max_le hmin (by norm_num)
    · intro hc; omega
  · rw [if_neg h3]
    rcases fitLoop_cases widthOf T bb.width
        ((min (bb.height * (17 / 20)) 12).num.toNat * 2 + 2)
        (min (bb.height * (17 / 20)) 12) with hl | ⟨hgt, hle, hwid⟩
    · rw [hl]
      refine ⟨⟨le_refl _, by norm_num, le_trans (by norm_num) (le_max_right _ _)⟩, ?_⟩
      intro _; right; rfl
    · refine ⟨⟨le_of_lt hgt, hle.trans (min_le_right _ _), hle.trans (le_max_left _ _)⟩, ?_⟩
      intro _; left; exact hwid

/-- Witness for the amended C6 at a concrete measuring function, text and
box (two words, width 10, height 10). -/
theorem c6_font_size_bounds_witness :
    (6 ≤ applyInPlaceEditFontSize (fun _ s => s) (cs "ab cd") ⟨0, 0, 10, 10⟩ ∧
      applyInPlaceEditFontSize (fun _ s => s) (cs "ab cd") ⟨0, 0, 10, 10⟩ ≤ 12 ∧
      applyInPlaceEditFontSize (fun _ s => s) (cs "ab cd") ⟨0, 0, 10, 10⟩ ≤
        max (min ((10 : ℚ) * (17 / 20)) 12) 8) ∧
    (applyInPlaceEditFontSize (fun _ s => s) (cs "ab cd") ⟨0, 0, 10, 10⟩ ≤ 10 ∨
      applyInPlaceEditFontSize (fun _ s => s) (cs "ab cd") ⟨0, 0, 10, 10⟩ = 6) :=
  ⟨(c6_font_size_bounds (fun _ s => s) (cs "ab cd") ⟨0, 0, 10, 10⟩).1,
   (c6_font_size_bounds (fun _ s => s) (cs "ab cd") ⟨0, 0, 10, 10⟩).2 (by decide)⟩

theorem collapseGo_nows (s : List Char) (h : ∀ c ∈ s, jsSpace c = false) :
    ∀ b, collapseGo b s = s := by
  induction s with
  | nil => intro b; rfl
  | cons c t ih =>
    intro b
    have hc : jsSpace c = false := h c (by simp)
    simp only [collapseGo, hc, Bool.false_eq_true, if_false]
    rw [ih (fun d hd => h d (by simp [hd]))]

theorem collapseGo_append_nows (w : List Char) (h : ∀ c ∈ w, jsSpace c = false) :
    ∀ s, collapseGo false (w ++ s) = w ++ collapseGo false s := by
  induction w with
  | nil => intro s; rfl
  | cons c t ih =>
    intro s
    have hc : jsSpace c = false := h c (by simp)
    simp only [List.cons_append, collapseGo, hc, Bool.false_eq_true, if_false,
      List.append_eq]
    rw [ih (fun d hd => h d (by simp [hd]))]

theorem collapseWs_two_words (w1 w2 : List Char)
    (n1 : ∀ c ∈ w1, jsSpace c = false) (n2 : ∀ c ∈ w2, jsSpace c = false) :
    collapseWs (w1 ++ ' ' :: w2) = w1 ++ ' ' :: w2 := by
  unfold collapseWs
  rw [collapseGo_append_nows w1 n1]
  simp only [collapseGo, show jsSpace ' ' = true from rfl, if_true]
  rw [collapseGo_nows w2 n2]
  simp

theorem map_id_of_mem (f : Char → Char) :
    ∀ (s : List Char), (∀ c ∈ s, f c = c) → s.map f = s := by
  intro s
  induction s with
  | nil => intro _; rfl
  | cons c t ih =>
    intro h
    simp only [List.map_cons, h c (by simp)]
    rw [ih (fun d hd => h d (by simp [hd]))]

theorem qdChar_id (c : Char) (h4 : c ≠ lsq) (h5 : c ≠ rsq) (h6 : c ≠ ldq)
    (h7 : c ≠ rdq) (h8 : c ≠ ndash) (h9 : c ≠ mdash) : qdChar c = c := by
  simp [qdChar, h4, h5, h6, h7, h8, h9]

theorem mapQD_two_words (w1 w2 : List Char)
    (g1 : ∀ c ∈ w1, goodChar c) (g2 : ∀ c ∈ w2, goodChar c) :
    mapQD (w1 ++ ' ' :: w2) = w1 ++ ' ' :: w2 := by
  unfold mapQD
  rw [List.map_append, List.map_cons]
  rw [map_id_of_mem qdChar w1 fun c hc =>
    qdChar_id c (g1 c hc).2.2.2.1 (g1 c hc).2.2.2.2.1 (g1 c hc).2.2.2.2.2.1
      (g1 c hc).2.2.2.2.2.2.1 (g1 c hc).2.2.2.2.2.2.2.1 (g1 c hc).2.2.2.2.2.2.2.2]
  rw [map_id_of_mem qdChar w2 fun c hc =>
    qdChar_id c (g2 c hc).2.2.2.1 (g2 c hc).2.2.2.2.1 (g2 c hc).2.2.2.2.2.1
      (g2 c hc).2.2.2.2.2.2.1 (g2 c hc).2.2.2.2.2.2.2.1 (g2 c hc).2.2.2.2.2.2.2.2]
  rw [show qdChar ' ' = ' ' from rfl]

theorem replaceAllGo_no_head (p0 : Char) (pt rep : List Char) :
    ∀ (fuel : Nat) (s : List Char), (∀ c ∈ s, c ≠ p0) →
      replaceAllGo p0 pt rep fuel s = s := by
  intro fuel
  induction fuel with
  | zero => intro s _; cases s <;> rfl
  | succ m ih =>
    intro s h
    cases s with
    | nil => rfl
    | cons c rest =>
      have hc : (p0 == c) = false := beq_eq_false_iff_ne.mpr (fun he => h c (by simp) he.symm)
      simp only [replaceAllGo, List.isPrefixOf_cons₂, hc, Bool.false_and,
        Bool.false_eq_true, if_false]
      rw [ih rest (fun d hd => h d (by simp [hd]))]

theorem entityDecode5_id (s : List Char) (h : ∀ c ∈ s, c ≠ '&') :
    entityDecode5 s = s := by
  unfold entityDecode5 replaceAllSub
  rw [replaceAllGo_no_head '&' (cs "amp;") ['&'] s.length s h]
  rw [replaceAllGo_no_head '&' (cs "lt;") ['<'] s.length s h]
  rw [replaceAllGo_no_head '&' (cs "gt;") ['>'] s.length s h]
  rw [replaceAllGo_no_head '&' (cs "quot;") [quotC] s.length s h]
  rw [replaceAllGo_no_head '&' (cs "#039;") [aposC] s.length s h]

theorem trimWs_two_words (w1 w2 : List Char) (h1 : w1 ≠ []) (h2 : w2 ≠ [])
    (n1 : ∀ c ∈ w1, jsSpace c = false) (n2 : ∀ c ∈ w2, jsSpace c = false) :
    trimWs (w1 ++ ' ' :: w2) = w1 ++ ' ' :: w2 := by
  have hd1 : (w1 ++ ' ' :: w2).dropWhile jsSpace = w1 ++ ' ' :: w2 := by
    obtain ⟨a, t, rfl⟩ := List.exists_cons_of_ne_nil h1
    rw [List.cons_append, List.dropWhile_cons, n1 a (by simp)]
    simp
  have hd2 : ((w1 ++ ' ' :: w2).reverse).dropWhile jsSpace = (w1 ++ ' ' :: w2).reverse := by
    cases hr : w2.reverse with
    | nil => exact absurd (List.reverse_eq_nil_iff.mp hr) h2
    | cons b bs =>
      have hb : jsSpace b = false := n2 b (by rw [← List.mem_reverse, hr]; simp)
      rw [List.reverse_append, List.reverse_cons, hr]
      rw [List.cons_append, List.cons_append, List.dropWhile_cons, hb]
      simp
  unfold trimWs
  rw [hd1, hd2, List.reverse_reverse]

theorem normalizeText_two_words (w1 w2 : List Char) (h1 : w1 ≠ []) (h2 : w2 ≠ [])
    (g1 : ∀ c ∈ w1, goodChar c) (g2 : ∀ c ∈ w2, goodChar c) :
    normalizeText (w1 ++ ' ' :: w2) = w1 ++ ' ' :: w2 := by
  have n1 : ∀ c ∈ w1, jsSpace c = false := fun c hc => (g1 c hc).1
  have n2 : ∀ c ∈ w2, jsSpace c = false := fun c hc => (g2 c hc).1
  have hamp : ∀ c ∈ w1 ++ ' ' :: w2, c ≠ '&' := by
    intro c hc
    rcases List.mem_append.mp hc with hm | hm
    · exact (g1 c hm).2.2.1
    · rcases List.mem_cons.mp hm with rfl | hm2
      · decide
      · exact (g2 c hm2).2.2.1
  unfold normalizeText
  rw [collapseWs_two_words w1 w2 n1 n2, mapQD_two_words w1 w2 g1 g2,
    entityDecode5_id _ hamp, trimWs_two_words w1 w2 h1 h2 n1 n2]

theorem splitWsAux_append_nows (w : List Char) (hn : ∀ c ∈ w, jsSpace c = false) :
    ∀ (acc s : List Char), splitWsAux false acc (w ++ s) = splitWsAux false (w.reverse ++ acc) s := by
  induction w with
  | nil => intro acc s; simp
  | cons c t ih =>
    intro acc s
    have hc : jsSpace c = false := hn c (by simp)
    simp only [List.cons_append, splitWsAux, hc, Bool.false_eq_true, if_false,
      List.append_eq]
    rw [ih (fun d hd => hn d (by simp [hd])) (c :: acc) s]
    simp [List.append_assoc]

theorem splitWsAux_all_nows (s : List Char) (hn : ∀ c ∈ s, jsSpace c = false) :
    ∀ acc, splitWsAux false acc s = [acc.reverse ++ s] := by
  induction s with
  | nil => intro acc; simp [splitWsAux]
  | cons c t ih =>
    intro acc
    have hc : jsSpace c = false := hn c (by simp)
    simp only [splitWsAux, hc, Bool.false_eq_true, if_false]
    rw [ih (fun d hd => hn d (by simp [hd])) (c :: acc)]
    simp

theorem splitWs_two_words (w1 w2 : List Char) (h2 : w2 ≠ [])
    (n1 : ∀ c ∈ w1, jsSpace c = false) (n2 : ∀ c ∈ w2, jsSpace c = false) :
    splitWsJS (w1 ++ ' ' :: w2) = [w1, w2] := by
  unfold splitWsJS
  rw [splitWsAux_append_nows w1 n1 [] (' ' :: w2), List.append_nil]
  obtain ⟨d, ds, rfl⟩ := List.exists_cons_of_ne_nil h2
  have hd : jsSpace d = false := n2 d (by simp)
  simp only [splitWsAux, show jsSpace ' ' = true from rfl, if_true, hd,
    Bool.false_eq_true, if_false, List.reverse_reverse]
  rw [splitWsAux_all_nows ds (fun c hc => n2 c (by simp [hc])) [d]]
  simp

theorem litCI_run (w : List Char) :
    ∀ (rest : List Char) (k : List Char → Option (List Char)),
      rxRun (litCI w) (w ++ rest) k = k rest := by
  induction w with
  | nil => intro rest k; rfl
  | cons c t ih =>
    intro rest k
    simp only [litCI, List.cons_append, rxRun, ciChar, beq_self_eq_true, if_true]
    exact ih rest k

theorem sepRx_skip (c : Char) (rest : List Char) (k : List Char → Option (List Char))
    (hws : jsSpace c = false) (hlt : c.toLower ≠ '<') :
    rxRun sepRx (c :: rest) k = k (c :: rest) := by
  have hlt2 : (c.toLower == '<'.toLower) = false := by
    rw [show '<'.toLower = '<' from rfl]
    exact beq_eq_false_iff_ne.mpr hlt
  have htw : List.takeWhile jsSpace (c :: rest) = [] :=
    List.takeWhile_cons_of_neg (by simp [hws])
  simp only [sepRx, brRx, rxRun, ciChar, htw, List.length_nil, starGo, hlt2,
    Bool.false_eq_true, if_false, hws]
  cases k (c :: rest) <;> rfl

theorem createFlex_two_words (w1 w2 : List Char) (h1 : w1 ≠ []) (h2 : w2 ≠ [])
    (g1 : ∀ c ∈ w1, goodChar c) (g2 : ∀ c ∈ w2, goodChar c) :
    createFlexibleHtmlRegex (w1 ++ ' ' :: w2) =
      some (.cat (litCI w1) (.cat sepRx (litCI w2))) := by
  unfold createFlexibleHtmlRegex
  rw [normalizeText_two_words w1 w2 h1 h2 g1 g2]
  rw [splitWs_two_words w1 w2 h2 (fun c hc => (g1 c hc).1) (fun c hc => (g2 c hc).1)]
  simp only [List.filter_cons, List.filter_nil, decide_eq_true_eq]
  rw [if_pos (List.length_pos.mpr h1), if_pos (List.length_pos.mpr h2)]
  simp [wordsRx]

theorem flexConcat_match (w1 w2 : List Char) (h2 : w2 ≠ [])
    (g2 : ∀ c ∈ w2, goodChar c) :
    rxRun (.cat (litCI w1) (.cat sepRx (litCI w2))) (w1 ++ w2) Option.some = some [] := by
  obtain ⟨d, ds, rfl⟩ := List.exists_cons_of_ne_nil h2
  rw [show rxRun (.cat (litCI w1) (.cat sepRx (litCI (d :: ds)))) (w1 ++ d :: ds) Option.some =
        rxRun (litCI w1) (w1 ++ d :: ds)
          (fun s2 => rxRun (.cat sepRx (litCI (d :: ds))) s2 Option.some) from rfl]
  rw [litCI_run w1 (d :: ds)]
  rw [show rxRun (.cat sepRx (litCI (d :: ds))) (d :: ds) Option.some =
        rxRun sepRx (d :: ds) (fun s3 => rxRun (litCI (d :: ds)) s3 Option.some) from rfl]
  rw [sepRx_skip d ds _ (g2 d (by simp)).1 (g2 d (by simp)).2.1]
  have h := litCI_run (d :: ds) [] Option.some
  rw [List.append_nil] at h
  exact h

theorem rxSearch_concat (w1 w2 : List Char) (h1 : w1 ≠ []) (h2 : w2 ≠ [])
    (g2 : ∀ c ∈ w2, goodChar c) :
    rxSearch (.cat (litCI w1) (.cat sepRx (litCI w2))) (w1 ++ w2) =
      some (0, (w1 ++ w2).length) := by
  have hm : matchLenAt (.cat (litCI w1) (.cat sepRx (litCI w2))) (w1 ++ w2) =
      some (w1 ++ w2).length := by
    unfold matchLenAt
    rw [flexConcat_match w1 w2 h2 g2]
    simp
  obtain ⟨a, t, rfl⟩ := List.exists_cons_of_ne_nil h1
  rw [List.cons_append] at hm ⊢
  simp only [rxSearch, hm]

theorem rxReplaceGo_nil_of_none (r : Rx) (n : List Char) (hnone : rxSearch r [] = none) :
    ∀ fuel, rxReplaceGo r n fuel [] = [] := by
  intro fuel
  cases fuel with
  | zero => rfl
  | succ m => simp only [rxReplaceGo, hnone]

theorem rxSearch_pat_nil (w1 w2 : List Char) (h1 : w1 ≠ []) :
    rxSearch (.cat (litCI w1) (.cat sepRx (litCI w2))) [] = none := by
  obtain ⟨a, t, rfl⟩ := List.exists_cons_of_ne_nil h1
  rfl

/-- Claim C9: the word separator of the flexible matcher accepts the empty
string, and consequently for any two-word phrase (over characters that
normalization leaves alone and that cannot be taken for whitespace or a
`<br>` tag) the matcher matches the two words directly concatenated with
nothing in between, and `replaceTextFuzzy` rewrites such a document to the
replacement text. -/
theorem c9_separator_matches_empty :
    rxRun sepRx [] Option.some = some [] ∧
    ∀ (w1 w2 n : List Char), w1 ≠ [] → w2 ≠ [] →
      (∀ c ∈ w1, goodChar c) → (∀ c ∈ w2, goodChar c) →
      replaceTextFuzzy (w1 ++ w2) (w1 ++ ' ' :: w2) n = n := by
  constructor
  · rfl
  · intro w1 w2 n h1 h2 g1 g2
    unfold replaceTextFuzzy
    rw [createFlex_two_words w1 w2 h1 h2 g1 g2]
    have hs := rxSearch_concat w1 w2 h1 h2 g2
    have htest : rxTest (.cat (litCI w1) (.cat sepRx (litCI w2))) (w1 ++ w2) = true := by
      unfold rxTest
      rw [hs]
      rfl
    show (if rxTest (.cat (litCI w1) (.cat sepRx (litCI w2))) (w1 ++ w2) = true
        then rxReplaceAll (.cat (litCI w1) (.cat sepRx (litCI w2))) n (w1 ++ w2)
        else fuzzyFallback (w1 ++ w2) (w1 ++ ' ' :: w2) n) = n
    rw [htest]
    simp only [if_true]
    unfold rxReplaceAll
    rw [rxReplaceGo, hs]
    have hL : (w1 ++ w2).length ≠ 0 := by
      obtain ⟨a, t, rfl⟩ := List.exists_cons_of_ne_nil h1
      simp
    simp only [hL, if_false]
    rw [Nat.zero_add, List.drop_length,
      rxReplaceGo_nil_of_none _ n (rxSearch_pat_nil w1 w2 h1) (w1 ++ w2).length]
    simp

/-- Witness for C9: `Led team` matched and replaced inside `Ledteam`. -/
theorem c9_separator_matches_empty_witness :
    replaceTextFuzzy (cs "Ledteam") (cs "Led team") (cs "X") = cs "X" :=
  c9_separator_matches_empty.2 (cs "Led") (cs "team") (cs "X")
    (by decide) (by decide) (by decide) (by decide)

end CvOpt

